import Mathlib

/-!
Verification development for the TiraLib iterator-tree core.

The Python sources are shallowly embedded below: `TiramisuTree` and
`IteratorNode` become Lean structures, the `iterators` dict becomes an
association list read by `List.lookup` and written by `aset` (replace the
first binding in place, append when absent, mirroring Python dict
assignment), recursive or while-loop traversals become fuel-indexed
recursions, and every fallible dict/list access returns `Option` so that a
Python `KeyError`/`ValueError` is a `none`.
-/

/-- One loop-nest node, mirroring `IteratorNode` in
`athena/tiramisu/tiramisu_iterator_node.py` as used by `tiramisu_tree.py`. -/
structure IteratorNode where
  name : String
  parent_iterator : Option String
  lower_bound : Int
  upper_bound : Int
  child_iterators : List String
  computations_list : List String
  level : Nat
deriving DecidableEq, Repr

/-- The tree of a Tiramisu program, mirroring `TiramisuTree.__init__`. -/
structure TiramisuTree where
  roots : List String
  iterators : List (String × IteratorNode)
  computations : List String
deriving DecidableEq, Repr

/-- Keys of the iterator dictionary. -/
def keys (it : List (String × IteratorNode)) : List String := it.map Prod.fst

/-- Python dict assignment `d[k] = v`: replace the first binding of `k`
in place, append a new binding when `k` is absent. -/
def aset : List (String × IteratorNode) → String → IteratorNode → List (String × IteratorNode)
  | [], k, v => [(k, v)]
  | (k', v') :: rest, k, v =>
      if k = k' then (k, v) :: rest else (k', v') :: aset rest k v

/-- Python `list.index`: the index of the first occurrence, `none` when the
element is absent (where Python raises `ValueError`). -/
def idxOf? : List String → String → Option Nat
  | [], _ => none
  | x :: xs, a => if x = a then some 0 else (idxOf? xs a).map (· + 1)

/-- Python `l[l.index(a)] = b`: replace the first occurrence of `a` by `b`,
`none` when `a` is absent. -/
def replaceAt (l : List String) (a b : String) : Option (List String) :=
  match idxOf? l a with
  | none => none
  | some i => some (l.set i b)

/-- The in-place mutation `parent.child_iterators[...index(a)] = b` done by
`interchange` on the parent entry `p` of the dictionary. -/
def updateParentChild (it : List (String × IteratorNode)) (p a b : String) :
    Option (List (String × IteratorNode)) :=
  match List.lookup p it with
  | none => none
  | some pn =>
      match replaceAt pn.child_iterators a b with
      | none => none
      | some cl => some (aset it p { pn with child_iterators := cl })

/-- One half of `TiramisuTree.interchange` (lines 199-226): update the side
of `self` (either its parent's child list, or `roots`), returning the new
tree state together with the possibly-adjusted replacement node.  The
`p = ""` branch reproduces Python truthiness of `if node1_parent:`. -/
def interStep (t : TiramisuTree) (self other : String) (selfParent : Option String)
    (newNode : IteratorNode) : Option (TiramisuTree × IteratorNode) :=
  match selfParent with
  | some p =>
      if p = "" then
        match replaceAt t.roots self other with
        | none => none
        | some rs => some ({ t with roots := rs }, newNode)
      else if p = other then
        some (t, { newNode with
          child_iterators := newNode.child_iterators.map
            (fun x => if x = self then other else x) })
      else
        match updateParentChild t.iterators p self other with
        | none => none
        | some it' => some ({ t with iterators := it' }, newNode)
  | none =>
      match replaceAt t.roots self other with
      | none => none
      | some rs => some ({ t with roots := rs }, newNode)

/-- Errors of the structural operations: `keyError` models a Python
`KeyError` on the iterators dictionary (the spec's `DisconnectedNodes` for
the two interchanged ids), `stepError` any `KeyError`/`ValueError` raised
while updating a parent's child list or `roots`. -/
inductive TreeErr where
  | keyError (k : String)
  | stepError
deriving DecidableEq, Repr

/-- `TiramisuTree.interchange(node1, node2)` (tiramisu_tree.py lines
153-229), with the state threaded explicitly: the returned tree is the
state at return time — on an error it is exactly the state reached when
the exception was raised, so atomicity is a real statement. -/
def interchangeRun (t : TiramisuTree) (node1 node2 : String) :
    TiramisuTree × Option TreeErr :=
  match List.lookup node1 t.iterators with
  | none => (t, some (.keyError node1))
  | some n1node =>
    match List.lookup node2 t.iterators with
    | none => (t, some (.keyError node2))
    | some n2node =>
      let node1_parent := n1node.parent_iterator
      let node2_parent := n2node.parent_iterator
      let new_node1 : IteratorNode :=
        { name := node1
          parent_iterator := if node2_parent = some node1 then some node2 else node2_parent
          lower_bound := n1node.lower_bound
          upper_bound := n1node.upper_bound
          child_iterators := n2node.child_iterators
          computations_list := n2node.computations_list
          level := n2node.level }
      let new_node2 : IteratorNode :=
        { name := node2
          parent_iterator := if node1_parent = some node2 then some node1 else node1_parent
          lower_bound := n2node.lower_bound
          upper_bound := n2node.upper_bound
          child_iterators := n1node.child_iterators
          computations_list := n1node.computations_list
          level := n1node.level }
      match interStep t node1 node2 node1_parent new_node1 with
      | none => (t, some .stepError)
      | some (t1, nn1) =>
        match interStep t1 node2 node1 node2_parent new_node2 with
        | none => (t1, some .stepError)
        | some (t2, nn2) =>
          ({ t2 with iterators := aset (aset t2.iterators node1 nn1) node2 nn2 }, none)

/-- The tree state after `interchange`, successful or not. -/
def interchange (t : TiramisuTree) (node1 node2 : String) : TiramisuTree :=
  (interchangeRun t node1 node2).1

/-- `TiramisuTree._get_section_of_node` (lines 110-124): extend the chain
while the node has exactly one child and no computations; return the chain
and the stop node's children (Python returns `[]` for a leaf, which equals
its empty child list). -/
def sectionOfNode (it : List (String × IteratorNode)) : Nat → String →
    Option (List String × List String)
  | 0, _ => none
  | fuel + 1, n =>
    match List.lookup n it with
    | none => none
    | some nd =>
      match nd.child_iterators, nd.computations_list with
      | [c], [] =>
        match sectionOfNode it fuel c with
        | none => none
        | some (sec, nxt) => some (n :: sec, nxt)
      | _, _ => some ([n], nd.child_iterators)

/-- The work-list loop of `TiramisuTree.get_candidate_sections` (lines
100-107) for one root: pop a node, take its section, append the new nodes
to visit at the end of the queue. -/
def collectSections (it : List (String × IteratorNode)) (chainFuel : Nat) :
    Nat → List String → Option (List (List String))
  | _, [] => some []
  | 0, _ :: _ => none
  | fuel + 1, n :: queue =>
    match sectionOfNode it chainFuel n with
    | none => none
    | some (sec, nxt) =>
      match collectSections it chainFuel fuel (queue ++ nxt) with
      | none => none
      | some rest => some (sec :: rest)

/-- Per-root iteration of `get_candidate_sections` (lines 99-108),
building the `root -> sections` dictionary in root order. -/
def sectionsForRoots (it : List (String × IteratorNode)) (fuel : Nat) :
    List String → Option (List (String × List (List String)))
  | [] => some []
  | r :: rs =>
    match collectSections it fuel fuel [r] with
    | none => none
    | some secs =>
      match sectionsForRoots it fuel rs with
      | none => none
      | some rest => some ((r, secs) :: rest)

/-- `TiramisuTree.get_candidate_sections` (lines 88-108).  The fuel bounds
the traversal; for any tree-shaped input it is sufficient (proved below). -/
def get_candidate_sections (t : TiramisuTree) :
    Option (List (String × List (List String))) :=
  sectionsForRoots t.iterators (t.iterators.length + 1) t.roots

/-- `TiramisuTree.get_candidate_computations` (lines 231-256) generalised
to a work list: the computations of the head node followed by its
children's subtrees depth-first, which equals the Python recursion's
pre-order output. -/
def gccMany (it : List (String × IteratorNode)) : Nat → List String → Option (List String)
  | _, [] => some []
  | 0, _ :: _ => none
  | fuel + 1, n :: rest =>
    match List.lookup n it with
    | none => none
    | some nd =>
      match gccMany it fuel (nd.child_iterators ++ rest) with
      | none => none
      | some out => some (nd.computations_list ++ out)

/-- `TiramisuTree.get_candidate_computations(node)` with canonical fuel. -/
def get_candidate_computations (t : TiramisuTree) (n : String) : Option (List String) :=
  gccMany t.iterators (t.iterators.length + 1) [n]

/-- All computations of the forest in pre-order, root-major order:
`get_candidate_computations` run over the roots in order. -/
def preorderComps (t : TiramisuTree) : Option (List String) :=
  gccMany t.iterators (t.iterators.length + 1) t.roots

/-- `TiramisuTree.get_level_of_node` (lines 126-151): count parent links
up to a root; the `p = ""` case reproduces Python truthiness of
`while node.parent_iterator:`. -/
def get_level_of_node (it : List (String × IteratorNode)) : Nat → String → Option Nat
  | 0, _ => none
  | fuel + 1, n =>
    match List.lookup n it with
    | none => none
    | some nd =>
      match nd.parent_iterator with
      | none => some 0
      | some p =>
        if p = "" then some 0
        else (get_level_of_node it fuel p).map (· + 1)

/-- Convenience constructor for nodes of concrete test trees. -/
def mkNode (nm : String) (par : Option String) (children comps : List String)
    (lvl : Nat) : IteratorNode :=
  { name := nm, parent_iterator := par, lower_bound := 0, upper_bound := 10,
    child_iterators := children, computations_list := comps, level := lvl }

/-- The sample tree of `tests/utils.tree_test_sample` as pinned down by the
repository's tests: `root -> {i(comp01), j -> k -> {l(comp03), m(comp04)}}`. -/
def tree_test_sample : TiramisuTree :=
  { roots := ["root"]
    iterators :=
      [("root", mkNode "root" none ["i", "j"] [] 0),
       ("i", mkNode "i" (some "root") [] ["comp01"] 1),
       ("j", mkNode "j" (some "root") ["k"] [] 1),
       ("k", mkNode "k" (some "j") ["l", "m"] [] 2),
       ("l", mkNode "l" (some "k") [] ["comp03"] 3),
       ("m", mkNode "m" (some "k") [] ["comp04"] 3)]
    computations := ["comp01", "comp03", "comp04"] }

/-- A two-root forest whose roots list is `["b", "a"]`; both roots are
trivial (no children, no computations). -/
def twoRootsTree : TiramisuTree :=
  { roots := ["b", "a"]
    iterators := [("a", mkNode "a" none [] [] 0), ("b", mkNode "b" none [] [] 0)]
    computations := [] }

/-- One entry of `annotations["iterators"]`, as consumed by
`TiramisuTree.from_annotations` (lines 58-78). -/
structure AnnotEntry where
  parent_iterator : Option String
  lower_bound : Int
  upper_bound : Int
  child_iterators : List String
  computations_list : List String
deriving DecidableEq, Repr

/-- The node built for one annotation entry at a given level. -/
def nodeOfEntry (nm : String) (e : AnnotEntry) (lvl : Nat) : IteratorNode :=
  { name := nm, parent_iterator := e.parent_iterator,
    lower_bound := e.lower_bound, upper_bound := e.upper_bound,
    child_iterators := e.child_iterators,
    computations_list := e.computations_list, level := lvl }

/-- The loop body of `TiramisuTree.from_annotations` (lines 60-78); the
`none` result models the `KeyError` raised at line 67 when an entry's
parent has not been processed yet. -/
def from_annotations_go (t : TiramisuTree) :
    List (String × AnnotEntry) → Option TiramisuTree
  | [] => some t
  | (nm, e) :: rest =>
    match e.parent_iterator with
    | none =>
        from_annotations_go
          { roots := t.roots ++ [nm]
            iterators := aset t.iterators nm (nodeOfEntry nm e 0)
            computations := t.computations ++ e.computations_list } rest
    | some p =>
        match List.lookup p t.iterators with
        | none => none
        | some pn =>
            from_annotations_go
              { roots := t.roots
                iterators := aset t.iterators nm (nodeOfEntry nm e (pn.level + 1))
                computations := t.computations ++ e.computations_list } rest

/-- `TiramisuTree.from_annotations` (lines 42-80): process the annotation
entries in their listed (dict insertion) order starting from an empty
tree. -/
def from_annotations (annots : List (String × AnnotEntry)) : Option TiramisuTree :=
  from_annotations_go { roots := [], iterators := [], computations := [] } annots

/-- Whether every entry's parent occurs among the already-seen names. -/
def parentsPrecede : List String → List (String × AnnotEntry) → Bool
  | _, [] => true
  | seen, (nm, e) :: rest =>
      (match e.parent_iterator with
       | none => true
       | some p => seen.contains p) && parentsPrecede (nm :: seen) rest

/-- A valid annotation: nonempty distinct names, bidirectionally consistent
parent/child references, and every parent listed before its children. -/
def validAnnots (annots : List (String × AnnotEntry)) : Bool :=
  decide ((annots.map Prod.fst).Nodup) &&
  annots.all (fun pr => decide (pr.1 ≠ "")) &&
  parentsPrecede [] annots &&
  annots.all (fun pr =>
    (match pr.2.parent_iterator with
     | none => true
     | some p =>
        match List.lookup p annots with
        | none => false
        | some pe => decide (pe.child_iterators.count pr.1 = 1)) &&
    pr.2.child_iterators.all (fun c =>
      match List.lookup c annots with
      | none => false
      | some ce => decide (ce.parent_iterator = some pr.1)))

/-- A 4-root annotation with 7 iterators and 4 computations, listed in
pre-order, root-major order: r1 -> a(c1), r2(c2), r3 -> b -> c(c3), r4(c4). -/
def annots4 : List (String × AnnotEntry) :=
  [("r1", { parent_iterator := none, lower_bound := 0, upper_bound := 10,
            child_iterators := ["a"], computations_list := [] }),
   ("a", { parent_iterator := some "r1", lower_bound := 0, upper_bound := 10,
           child_iterators := [], computations_list := ["c1"] }),
   ("r2", { parent_iterator := none, lower_bound := 0, upper_bound := 10,
            child_iterators := [], computations_list := ["c2"] }),
   ("r3", { parent_iterator := none, lower_bound := 0, upper_bound := 10,
            child_iterators := ["b"], computations_list := [] }),
   ("b", { parent_iterator := some "r3", lower_bound := 0, upper_bound := 10,
           child_iterators := ["c"], computations_list := [] }),
   ("c", { parent_iterator := some "b", lower_bound := 0, upper_bound := 10,
           child_iterators := [], computations_list := ["c3"] }),
   ("r4", { parent_iterator := none, lower_bound := 0, upper_bound := 10,
            child_iterators := [], computations_list := ["c4"] })]

/-- A valid annotation of the forest `r -> {a(ca), b(cb)}` whose entries are
listed with `b` before `a`: parents still precede children, but the listing
is not in pre-order (`a` is the first child of `r` yet appears last). -/
def annotsOrd : List (String × AnnotEntry) :=
  [("r", { parent_iterator := none, lower_bound := 0, upper_bound := 10,
           child_iterators := ["a", "b"], computations_list := [] }),
   ("b", { parent_iterator := some "r", lower_bound := 0, upper_bound := 10,
           child_iterators := [], computations_list := ["cb"] }),
   ("a", { parent_iterator := some "r", lower_bound := 0, upper_bound := 10,
           child_iterators := [], computations_list := ["ca"] })]

/-- The two-node program `r -> a(ca)` listed parent-first. -/
def annotsFwd : List (String × AnnotEntry) :=
  [("r", { parent_iterator := none, lower_bound := 0, upper_bound := 10,
           child_iterators := ["a"], computations_list := [] }),
   ("a", { parent_iterator := some "r", lower_bound := 0, upper_bound := 10,
           child_iterators := [], computations_list := ["ca"] })]

/-- The same program as `annotsFwd` with the child's entry listed before
its parent's. -/
def annotsRev : List (String × AnnotEntry) :=
  [("a", { parent_iterator := some "r", lower_bound := 0, upper_bound := 10,
           child_iterators := [], computations_list := ["ca"] }),
   ("r", { parent_iterator := none, lower_bound := 0, upper_bound := 10,
           child_iterators := ["a"], computations_list := [] })]

/-- Modelled from the spec: a `TransformationAction`.  Only the
Parallelization variant is needed here (`params=[index]` and the impacted
computations), matching the constructor calls in
`sequential_parallelization.py`; the `Parallelization` class itself is not
among the sources. -/
structure TAction where
  params : List Nat
  comps : List String
deriving DecidableEq, Repr

/-- Modelled from the spec (section 4.4): a `Schedule` is an ordered action
list over a fixed program; `copy` duplicates it (value semantics here),
`add_optimization` appends, `is_legal` asks the legality oracle about the
accumulated list.  The `Schedule` class is not among the sources. -/
structure Schedule where
  optims_list : List TAction
deriving DecidableEq, Repr

/-- Modelled from the spec (section 4.3): `Parallelization.get_candidates`
yields, for a root, one candidate per node of that root's candidate
sections (the class is not among the sources; the search loop iterates the
nodes of one candidate, so each candidate is its list of nodes). -/
def parallelizationCandidates (t : TiramisuTree) (root : String) : List (List String) :=
  match collectSections t.iterators (t.iterators.length + 1) (t.iterators.length + 1) [root] with
  | none => []
  | some secs => secs.flatten.map (fun n => [n])

/-- The inner loop body of `parallelize_first_legal_outermost` (lines
15-21): append one Parallelization action per node of the candidate to the
trial schedule. -/
def addCandidateActions (t : TiramisuTree) (idx : Nat) (cand : List String)
    (s : Schedule) : Schedule :=
  cand.foldl
    (fun sch node =>
      { optims_list := sch.optims_list ++
          [{ params := [idx],
             comps := (get_candidate_computations t node).getD [] }] }) s

/-- The candidate loop of `parallelize_first_legal_outermost` (lines
14-24): NOTE that, as in the source, the trial schedule `tmp` is threaded
across candidates of the same root — it is copied once per root (line 13),
not once per candidate — and the first trial the oracle accepts is
returned. -/
def tryCandidatesCode (oracle : List TAction → Bool) (t : TiramisuTree)
    (best : Schedule) : Nat → Schedule → List (List String) → Schedule
  | _, _, [] => best
  | idx, tmp, c :: rest =>
    let tmp' := addCandidateActions t idx c tmp
    if oracle tmp'.optims_list then tmp'
    else tryCandidatesCode oracle t best (idx + 1) tmp' rest

/-- The root loop of `parallelize_first_legal_outermost` (lines 12-24). -/
def parallelize_go (oracle : List TAction → Bool) (t : TiramisuTree) :
    Schedule → List String → Schedule
  | sched, [] => sched
  | sched, root :: rest =>
      parallelize_go oracle t
        (tryCandidatesCode oracle t sched 0 sched (parallelizationCandidates t root)) rest

/-- `parallelize_first_legal_outermost` (sequential_parallelization.py
lines 6-28): `none` models the Python `return None` when no optimization
was ever accepted. -/
def parallelize_first_legal_outermost (oracle : List TAction → Bool)
    (t : TiramisuTree) : Option Schedule :=
  let sched := parallelize_go oracle t { optims_list := [] } t.roots
  if sched.optims_list = [] then none else some sched

/-- The candidate loop as the claim words it: each candidate is tried on a
fresh copy of the current best schedule, so a trial holds the best
schedule's actions plus only that one candidate's actions. -/
def tryCandidatesFresh (oracle : List TAction → Bool) (t : TiramisuTree)
    (best : Schedule) : Nat → List (List String) → Schedule
  | _, [] => best
  | idx, c :: rest =>
    let trial := addCandidateActions t idx c best
    if oracle trial.optims_list then trial
    else tryCandidatesFresh oracle t best (idx + 1) rest

/-- The root loop over the per-candidate-fresh trial policy. -/
def parallelizeFreshGo (oracle : List TAction → Bool) (t : TiramisuTree) :
    Schedule → List String → Schedule
  | sched, [] => sched
  | sched, root :: rest =>
      parallelizeFreshGo oracle t
        (tryCandidatesFresh oracle t sched 0 (parallelizationCandidates t root)) rest

/-- The whole search under the claim's per-candidate-fresh trial policy,
for comparison with `parallelize_first_legal_outermost`. -/
def parallelize_per_candidate_fresh (oracle : List TAction → Bool)
    (t : TiramisuTree) : Option Schedule :=
  let sched := parallelizeFreshGo oracle t { optims_list := [] } t.roots
  if sched.optims_list = [] then none else some sched

/-- The successive trial schedules the source's candidate loop submits to
the oracle: each extends the previous trial (not the base) by one
candidate's actions. -/
def accumTrials (t : TiramisuTree) : Nat → Schedule → List (List String) → List Schedule
  | _, _, [] => []
  | idx, tmp, c :: rest =>
    let tmp' := addCandidateActions t idx c tmp
    tmp' :: accumTrials t (idx + 1) tmp' rest

/-- An oracle that accepts exactly the schedules holding two actions. -/
def oracleLenTwo : List TAction → Bool := fun l => l.length == 2

/-- A single-root tree `r -> {u(c1), v(c2)}` giving three parallelization
candidates `[r]`, `[u]`, `[v]`. -/
def tC3 : TiramisuTree :=
  { roots := ["r"]
    iterators :=
      [("r", mkNode "r" none ["u", "v"] [] 0),
       ("u", mkNode "u" (some "r") [] ["c1"] 1),
       ("v", mkNode "v" (some "r") [] ["c2"] 1)]
    computations := ["c1", "c2"] }

/-- Modelled from the spec: `CompilingService.call_skewing_solver` is the
external skewing solver (the `CompilingService` class is not among the
sources).  It is modelled as a stream of answers consumed one call at a
time, so the number of calls made is observable. -/
def callSolver (answers : Nat → Option (Int × Int)) (calls : Nat) :
    Option (Int × Int) × Nat :=
  (answers calls, calls + 1)

/-- `Skewing.get_factors` (skewing.py lines 58-75): one solver call; return
its factors, or raise `ValueError` (modelled as `Except.error`) when the
solver returned none. -/
def get_factors (answers : Nat → Option (Int × Int)) (calls : Nat) :
    Except String (Int × Int) × Nat :=
  let res := callSolver answers calls
  match res.1 with
  | some factors => (Except.ok factors, res.2)
  | none => (Except.error "Skewing did not return any factors", res.2)

/-- Tree-shaped forests: a sibling-encoded rose forest used to state that a
`TiramisuTree` is acyclic and fully keyed.  `node n c s` is a tree named
`n` with child forest `c`, followed by its sibling forest `s`. -/
inductive NT where
  | nilt : NT
  | node (rootName : String) (children : NT) (sibling : NT) : NT

/-- Names of the roots of a forest, in order. -/
def NT.rootNames : NT → List String
  | .nilt => []
  | .node n _ s => n :: NT.rootNames s

/-- All names of a forest, pre-order, root-major. -/
def NT.names : NT → List String
  | .nilt => []
  | .node n c s => n :: (NT.names c ++ NT.names s)

/-- Concatenation of two forests (appending root lists). -/
def NT.cat : NT → NT → NT
  | .nilt, g => g
  | .node n c s, g => .node n c (NT.cat s g)

/-- Whether the iterator dictionary realises the forest: every forest node
is a key whose `child_iterators` are exactly the names of its child
forest, in order. -/
def repOK (it : List (String × IteratorNode)) : NT → Bool
  | .nilt => true
  | .node n c s =>
    match List.lookup n it with
    | none => false
    | some nd =>
        decide (nd.child_iterators = NT.rootNames c) && repOK it c && repOK it s

/-- The sample tree's shape as a forest. -/
def sampleForest : NT :=
  .node "root"
    (.node "i" .nilt
      (.node "j"
        (.node "k"
          (.node "l" .nilt (.node "m" .nilt .nilt))
          .nilt)
        .nilt))
    .nilt

/-- The data-model invariants of the spec (section 3), as an executable
check: distinct nonempty keys, levels consistent with parents, every
non-root bound to a parent holding it exactly once, every child key bound
back to its holder, and `roots` listing exactly the parentless nodes. -/
def invariantHolds (t : TiramisuTree) : Bool :=
  decide ((keys t.iterators).Nodup) &&
  t.iterators.all (fun pr =>
    decide (pr.1 ≠ "") &&
    (match pr.2.parent_iterator with
     | none => decide (pr.1 ∈ t.roots) && decide (pr.2.level = 0)
     | some p =>
        decide (p ≠ "") &&
        (match List.lookup p t.iterators with
         | none => false
         | some pn =>
            decide (pn.child_iterators.count pr.1 = 1) &&
            decide (pr.2.level = pn.level + 1)))) &&
  t.iterators.all (fun pr =>
    pr.2.child_iterators.all (fun c =>
      match List.lookup c t.iterators with
      | none => false
      | some cn => decide (cn.parent_iterator = some pr.1))) &&
  t.roots.all (fun r =>
    match List.lookup r t.iterators with
    | none => false
    | some rn => decide (rn.parent_iterator = none))

/-- The annotation entries whose parents all appear among already-seen
names, the propositional counterpart of `parentsPrecede`. -/
def ParentsSeen : List String → List (String × AnnotEntry) → Prop
  | _, [] => True
  | seen, pr :: rest =>
      (∀ p, pr.2.parent_iterator = some p → p ∈ seen) ∧ ParentsSeen (pr.1 :: seen) rest

/-- The state invariant maintained while `from_annotations` builds its
tree: keys are nonempty, level fields are 0 for parentless nodes (which
are in `roots`) and parent level + 1 otherwise, and levels stay below the
number of stored nodes. -/
def BuildInv (t : TiramisuTree) : Prop :=
  (∀ nm, nm ∈ keys t.iterators → nm ≠ "") ∧
  (∀ nm nd, List.lookup nm t.iterators = some nd →
    (nd.parent_iterator = none → nd.level = 0 ∧ nm ∈ t.roots) ∧
    (∀ p, nd.parent_iterator = some p → p ≠ "" ∧
      ∃ pn, List.lookup p t.iterators = some pn ∧ nd.level = pn.level + 1) ∧
    nd.level < t.iterators.length)

/-- C8: on the sample tree `root -> {i(comp01), j -> k -> {l(comp03),
m(comp04)}}`, `get_candidate_sections` returns, for the single root, the
sections `[root]`, `[i]`, `[j,k]`, `[l]`, `[m]`, in breadth-first order
with the root's own section first: chains extend through single-child,
computation-free nodes and stop at computations, leaves or branching. -/
theorem get_candidate_sections_sample :
    get_candidate_sections tree_test_sample =
      some [("root", [["root"], ["i"], ["j", "k"], ["l"], ["m"]])] := by
  decide

/-- C1 (code bug): after `interchange("i", "j")` on the sample tree, the
node `k` moved with the exchanged subtree into `i`'s child list, yet its
`parent_iterator` still records the old holder `j` — the bidirectional
parent/child invariant is broken, contradicting the repository's own
`test_interchange` assertion that it becomes `"i"`. -/
theorem interchange_stale_child_parent :
    (interchangeRun tree_test_sample "i" "j").2 = none ∧
    ∃ ni nk,
      List.lookup "i" (interchange tree_test_sample "i" "j").iterators = some ni ∧
      List.lookup "k" (interchange tree_test_sample "i" "j").iterators = some nk ∧
      "k" ∈ ni.child_iterators ∧
      nk.parent_iterator = some "j" ∧
      nk.parent_iterator ≠ some "i" := by
  refine ⟨by decide, ?_⟩
  refine ⟨_, _, rfl, rfl, by decide, by decide, by decide⟩

/-- C2 (code bug): `i` and `j` are siblings of `root` with children list
`["i", "j"]`; after `interchange("i", "j")` the source writes `j` into
`i`'s slot and then, looking up `j`'s index in `["j", "j"]`, writes `i`
back into the same slot — the list stays `["i", "j"]` instead of becoming
`["j", "i"]` as the claim requires. -/
theorem interchange_sibling_children_not_swapped :
    (interchangeRun tree_test_sample "i" "j").2 = none ∧
    ∃ rn,
      List.lookup "root" (interchange tree_test_sample "i" "j").iterators = some rn ∧
      rn.child_iterators = ["i", "j"] ∧
      (["i", "j"] : List String) ≠ ["j", "i"] := by
  refine ⟨by decide, ?_⟩
  exact ⟨_, rfl, by decide, by decide⟩

/-- C6 (code bug): on the invariant-satisfying two-root forest with
`roots = ["b", "a"]`, both calls of `interchange("a", "b")` succeed, yet
the roots list ends as `["a", "b"]`: the double interchange does not
restore the original structure.  The first call swaps the two root slots
correctly; the second hits the first-occurrence index collision and leaves
the list unswapped. -/
theorem interchange_twice_not_involutive :
    invariantHolds twoRootsTree = true ∧
    (interchangeRun twoRootsTree "a" "b").2 = none ∧
    (interchangeRun (interchange twoRootsTree "a" "b") "a" "b").2 = none ∧
    (interchange (interchange twoRootsTree "a" "b") "a" "b").roots = ["a", "b"] ∧
    twoRootsTree.roots = ["b", "a"] ∧
    (["a", "b"] : List String) ≠ ["b", "a"] := by
  refine ⟨by decide, by decide, by decide, by decide, by decide, by decide⟩

/-- C9: `Skewing.get_factors` makes exactly one solver call (the call
counter advances by one, whatever the solver answers), returns exactly the
factors the solver produced when it produced some, and raises exactly when
the solver's answer is none. -/
theorem get_factors_single_call (answers : Nat → Option (Int × Int)) (calls : Nat) :
    (get_factors answers calls).2 = calls + 1 ∧
    (get_factors answers calls).1 =
      (match answers calls with
       | some factors => Except.ok factors
       | none => Except.error "Skewing did not return any factors") := by
  unfold get_factors callSolver
  cases answers calls <;> exact ⟨rfl, rfl⟩

/-- C3 counterexample: with the oracle accepting exactly two-action
schedules, the source's search commits a schedule holding the actions of
two different candidates of the same root (the trial accumulated the
rejected first candidate), while the claim's per-candidate-fresh policy
accepts nothing and returns the no-schedule signal. -/
theorem parallelize_trial_not_fresh :
    (parallelize_first_legal_outermost oracleLenTwo tC3).map
        (fun s => s.optims_list.length) = some 2 ∧
    (parallelize_first_legal_outermost oracleLenTwo tC3).map
        (fun s => s.optims_list.map (fun a => a.params)) = some [[0], [1]] ∧
    parallelize_per_candidate_fresh oracleLenTwo tC3 = none := by
  refine ⟨by decide, by decide, by decide⟩

/-- C4 counterexample: on the valid annotation `annotsOrd` (the forest
`r -> {a(ca), b(cb)}` listed `r, b, a`), `from_annotations` populates no
`computations_absolute_order` at all — `TiramisuTree` has no such
attribute — and the order it does populate, `computations`, follows
annotation listing order `["cb", "ca"]`, which disagrees with the
pre-order, root-major sequence `["ca", "cb"]`. -/
theorem from_annotations_order_not_preorder :
    validAnnots annotsOrd = true ∧
    (from_annotations annotsOrd).map (fun t => t.computations) = some ["cb", "ca"] ∧
    (from_annotations annotsOrd).map (fun t => preorderComps t) =
      some (some ["ca", "cb"]) ∧
    (["cb", "ca"] : List String) ≠ ["ca", "cb"] := by
  refine ⟨by decide, by decide, by decide, by decide⟩

/-- C5 counterexample: the two-entry program `r -> a(ca)` is accepted when
listed parent-first but `from_annotations` fails (KeyError at the level
lookup of the unprocessed parent) when the child's entry precedes the
parent's — it does not succeed regardless of listing order. -/
theorem from_annotations_child_first_fails :
    from_annotations annotsFwd ≠ none ∧
    from_annotations annotsRev = none := by
  refine ⟨by decide, by decide⟩

lemma tryCandidatesCode_eq_find (oracle : List TAction → Bool) (t : TiramisuTree)
    (best : Schedule) :
    ∀ (cands : List (List String)) (idx : Nat) (tmp : Schedule),
      tryCandidatesCode oracle t best idx tmp cands =
        ((accumTrials t idx tmp cands).find? (fun s => oracle s.optims_list)).getD best := by
  intro cands
  induction cands with
  | nil => intro idx tmp; rfl
  | cons c rest ih =>
      intro idx tmp
      simp only [tryCandidatesCode, accumTrials, List.find?]
      cases h : oracle (addCandidateActions t idx c tmp).optims_list with
      | true => rfl
      | false => simpa using ih (idx + 1) (addCandidateActions t idx c tmp)

lemma tryCandidatesCode_all_false (oracle : List TAction → Bool) (t : TiramisuTree)
    (best : Schedule) (idx : Nat) (tmp : Schedule) (cands : List (List String))
    (h : ∀ l, oracle l = false) :
    tryCandidatesCode oracle t best idx tmp cands = best := by
  rw [tryCandidatesCode_eq_find]
  have : (accumTrials t idx tmp cands).find? (fun s => oracle s.optims_list) = none := by
    rw [List.find?_eq_none]
    intro x _
    simp [h x.optims_list]
  rw [this]
  rfl

lemma parallelize_go_all_false (oracle : List TAction → Bool) (t : TiramisuTree)
    (h : ∀ l, oracle l = false) :
    ∀ (rs : List String) (sched : Schedule), parallelize_go oracle t sched rs = sched := by
  intro rs
  induction rs with
  | nil => intro sched; rfl
  | cons r rest ih =>
      intro sched
      simp only [parallelize_go, tryCandidatesCode_all_false oracle t sched 0 sched _ h]
      exact ih sched

/-- C3 (amended): the source's candidate loop copies the trial once per
root and then accumulates: the trials submitted to the oracle are the
successive extensions of that one trial (`accumTrials`), and the committed
schedule is the first accumulated trial the oracle accepts, the remaining
candidates of the root being skipped (first-legal-wins).  When the oracle
accepts nothing, the search returns the no-schedule-found signal `none`,
never an empty but successful schedule. -/
theorem parallelize_first_legal_amended :
    (∀ (oracle : List TAction → Bool) (t : TiramisuTree) (best : Schedule)
        (idx : Nat) (tmp : Schedule) (cands : List (List String)),
      tryCandidatesCode oracle t best idx tmp cands =
        ((accumTrials t idx tmp cands).find? (fun s => oracle s.optims_list)).getD best) ∧
    (∀ (oracle : List TAction → Bool) (t : TiramisuTree),
      (∀ l, oracle l = false) → parallelize_first_legal_outermost oracle t = none) ∧
    (∀ (oracle : List TAction → Bool) (t : TiramisuTree) (s : Schedule),
      parallelize_first_legal_outermost oracle t = some s → s.optims_list ≠ []) := by
  refine ⟨fun oracle t best idx tmp cands => tryCandidatesCode_eq_find oracle t best cands idx tmp, ?_, ?_⟩
  · intro oracle t h
    simp [parallelize_first_legal_outermost, parallelize_go_all_false oracle t h]
  · intro oracle t s h
    simp only [parallelize_first_legal_outermost] at h
    by_cases hc : (parallelize_go oracle t { optims_list := [] } t.roots).optims_list = []
    · simp [hc] at h
    · simp only [if_neg hc, Option.some.injEq] at h
      rw [← h]
      exact hc

/-- Witness for C3's amended theorem: with an all-rejecting oracle the
search on the concrete tree `tC3` returns `none`. -/
theorem parallelize_first_legal_amended_witness :
    parallelize_first_legal_outermost (fun _ => false) tC3 = none :=
  parallelize_first_legal_amended.2.1 (fun _ => false) tC3 (fun _ => rfl)

lemma from_annotations_go_computations :
    ∀ (annots : List (String × AnnotEntry)) (t t' : TiramisuTree),
      from_annotations_go t annots = some t' →
      t'.computations = t.computations ++ annots.flatMap (fun pr => pr.2.computations_list) := by
  intro annots
  induction annots with
  | nil =>
      intro t t' h
      simp only [from_annotations_go, Option.some.injEq] at h
      simp [← h]
  | cons pr rest ih =>
      intro t t' h
      obtain ⟨nm, e⟩ := pr
      simp only [from_annotations_go] at h
      split at h
      · have := ih _ _ h
        simp only [this]
        simp [List.append_assoc]
      · split at h
        · exact absurd h (by simp)
        · have := ih _ _ h
          simp only [this]
          simp [List.append_assoc]

/-- C4 (amended): `from_annotations` populates only `computations` (the
source `TiramisuTree` has no `computations_absolute_order` attribute); its
1-based ranks follow the annotation's listing order of the iterators, and
thus agree with the pre-order, root-major sequence exactly when the
annotation is listed in that order — in particular the 4-root, 7-iterator,
4-computation annotation `annots4`, listed in pre-order, yields exactly 4
entries ranked 1..4 in pre-order, root-major sequence. -/
theorem from_annotations_computations_order :
    (∀ (annots : List (String × AnnotEntry)) (t : TiramisuTree),
      from_annotations annots = some t →
      t.computations = annots.flatMap (fun pr => pr.2.computations_list)) ∧
    validAnnots annots4 = true ∧
    (from_annotations annots4).map (fun t => t.computations) =
      some ["c1", "c2", "c3", "c4"] ∧
    (from_annotations annots4).map (fun t => t.computations.length) = some 4 ∧
    (from_annotations annots4).map (fun t => preorderComps t) =
      some (some ["c1", "c2", "c3", "c4"]) := by
  refine ⟨?_, by decide, by decide, by decide, by decide⟩
  intro annots t h
  simpa using from_annotations_go_computations annots _ t h

/-- Witness for C4's amended theorem at the concrete annotation. -/
theorem from_annotations_computations_order_witness :
    ((from_annotations annots4).getD { roots := [], iterators := [], computations := [] }).computations
      = annots4.flatMap (fun pr => pr.2.computations_list) :=
  from_annotations_computations_order.1 annots4 _ (by decide)

lemma lookup_nil_eq {B : Type} (k : String) : List.lookup k ([] : List (String × B)) = none := rfl

lemma lookup_cons_eq {B : Type} (k k' : String) (v : B) (rest : List (String × B)) :
    List.lookup k ((k', v) :: rest) = if k = k' then some v else List.lookup k rest := by
  cases hbeq : (k == k') with
  | true =>
      have heq : k = k' := eq_of_beq hbeq
      simp [List.lookup, hbeq, heq]
  | false =>
      have hne : k ≠ k' := ne_of_beq_false hbeq
      simp [List.lookup, hbeq, hne]

lemma lookup_mem {B : Type} : ∀ {it : List (String × B)} {k : String} {v : B},
    List.lookup k it = some v → (k, v) ∈ it := by
  intro it
  induction it with
  | nil => intro k v h; simp [lookup_nil_eq] at h
  | cons kv rest ih =>
      intro k v h
      obtain ⟨k', v'⟩ := kv
      rw [lookup_cons_eq] at h
      by_cases hk : k = k'
      · rw [if_pos hk] at h
        injection h with h'
        simp [hk, h']
      · rw [if_neg hk] at h
        exact List.mem_cons_of_mem _ (ih h)

lemma lookup_aset : ∀ (it : List (String × IteratorNode)) (k : String) (v : IteratorNode)
    (k' : String),
    List.lookup k' (aset it k v) = if k' = k then some v else List.lookup k' it := by
  intro it
  induction it with
  | nil =>
      intro k v k'
      by_cases h : k' = k <;> simp [aset, lookup_nil_eq, lookup_cons_eq, h]
  | cons kv rest ih =>
      intro k v k'
      obtain ⟨a, b⟩ := kv
      by_cases hka : k = a
      · subst hka
        by_cases h : k' = k <;> simp [aset, lookup_cons_eq, h]
      · by_cases h : k' = a
        · subst h
          have hne : ¬ k' = k := fun hc => hka hc.symm
          simp [aset, hka, lookup_cons_eq, hne]
        · simp [aset, hka, lookup_cons_eq, h, ih k v k']

lemma idxOf?_spec : ∀ (l : List String) (a : String), a ∈ l →
    ∃ i, idxOf? l a = some i ∧ i < l.length ∧ l.get? i = some a := by
  intro l
  induction l with
  | nil => intro a h; simp at h
  | cons x xs ih =>
      intro a h
      by_cases hx : x = a
      · exact ⟨0, by simp [idxOf?, hx], by simp, by simp [hx]⟩
      · have hmem : a ∈ xs := by
          rcases List.mem_cons.mp h with h' | h'
          · exact absurd h'.symm hx
          · exact h'
        obtain ⟨i, hi, hlen, hget⟩ := ih a hmem
        exact ⟨i + 1, by simp [idxOf?, hx, hi], by simpa using hlen, by simpa using hget⟩

lemma mem_set_self : ∀ (l : List String) (i : Nat), i < l.length → ∀ b, b ∈ l.set i b := by
  intro l
  induction l with
  | nil => intro i h; simp at h
  | cons x xs ih =>
      intro i h b
      cases i with
      | zero => simp [List.set]
      | succ j =>
          have : j < xs.length := by simpa using h
          simp only [List.set]
          exact List.mem_cons_of_mem _ (ih j this b)

lemma mem_set_of_ne : ∀ (l : List String) (i : Nat) (b x : String),
    x ∈ l → l.get? i ≠ some x → x ∈ l.set i b := by
  intro l
  induction l with
  | nil => intro i b x h; simp at h
  | cons y ys ih =>
      intro i b x hx hget
      cases i with
      | zero =>
          simp only [List.get?] at hget
          rcases List.mem_cons.mp hx with h | h
          · exact absurd (by simp [← h]) hget
          · simp only [List.set]
            exact List.mem_cons_of_mem _ h
      | succ j =>
          simp only [List.set]
          rcases List.mem_cons.mp hx with h | h
          · exact h ▸ List.mem_cons_self _ _
          · exact List.mem_cons_of_mem _ (ih j b x h (by simpa using hget))

lemma replaceAt_spec (l : List String) (a b : String) (h : a ∈ l) :
    ∃ l', replaceAt l a b = some l' ∧ b ∈ l' ∧ ∀ x ∈ l, x ≠ a → x ∈ l' := by
  obtain ⟨i, hi, hlen, hget⟩ := idxOf?_spec l a h
  refine ⟨l.set i b, by simp [replaceAt, hi], mem_set_self l i hlen b, ?_⟩
  intro x hx hxa
  refine mem_set_of_ne l i b x hx ?_
  rw [hget]
  intro hc
  exact hxa (by injection hc with h'; exact h'.symm)

lemma count_one_mem {l : List String} {a : String} (h : l.count a = 1) : a ∈ l := by
  by_contra hc
  rw [List.count_eq_zero.mpr hc] at h
  exact absurd h (by simp)

lemma inv_node {t : TiramisuTree} (hInv : invariantHolds t = true)
    {nm : String} {nd : IteratorNode} (h : List.lookup nm t.iterators = some nd) :
    (nd.parent_iterator = none → nm ∈ t.roots) ∧
    (∀ p, nd.parent_iterator = some p →
      p ≠ "" ∧ ∃ pn, List.lookup p t.iterators = some pn ∧ nm ∈ pn.child_iterators) := by
  have hmem : (nm, nd) ∈ t.iterators := lookup_mem h
  simp only [invariantHolds, Bool.and_eq_true] at hInv
  obtain ⟨⟨⟨_, hB⟩, _⟩, _⟩ := hInv
  have hnode := List.all_eq_true.mp hB (nm, nd) hmem
  simp only [Bool.and_eq_true] at hnode
  obtain ⟨_, hpar⟩ := hnode
  constructor
  · intro hp
    simp only [hp, Bool.and_eq_true, decide_eq_true_eq] at hpar
    exact hpar.1
  · intro p hp
    simp only [hp] at hpar
    cases hlp : List.lookup p t.iterators with
    | none =>
        simp only [hlp] at hpar
        exact absurd hpar (by simp)
    | some pn =>
        simp only [hlp, Bool.and_eq_true, decide_eq_true_eq] at hpar
        exact ⟨hpar.1, pn, rfl, count_one_mem hpar.2.1⟩

lemma interStep_ok (t : TiramisuTree) (self other : String) (selfParent : Option String)
    (newN : IteratorNode)
    (hnone : selfParent = none → self ∈ t.roots)
    (hsome : ∀ p, selfParent = some p → p ≠ "" ∧
      (p = other ∨ ∃ pn, List.lookup p t.iterators = some pn ∧ self ∈ pn.child_iterators)) :
    ∃ t' nn, interStep t self other selfParent newN = some (t', nn) ∧
      (∀ x ∈ t.roots, x ≠ self → x ∈ t'.roots) ∧
      (selfParent = none → self ∈ t.roots → other ∈ t'.roots) ∧
      (∀ q qn, List.lookup q t.iterators = some qn →
        ∃ qn', List.lookup q t'.iterators = some qn' ∧
          (other ∈ qn.child_iterators → other ∈ qn'.child_iterators)) := by
  cases selfParent with
  | none =>
      have hself := hnone rfl
      obtain ⟨rs, hrs, hb, hpres⟩ := replaceAt_spec t.roots self other hself
      refine ⟨{ t with roots := rs }, newN, ?_, ?_, ?_, ?_⟩
      · simp [interStep, hrs]
      · intro x hx hxne; exact hpres x hx hxne
      · intro _ _; exact hb
      · intro q qn hq; exact ⟨qn, hq, fun hmo => hmo⟩
  | some p =>
      obtain ⟨hpne, hcase⟩ := hsome p rfl
      by_cases hpo : p = other
      · subst hpo
        have hstep : interStep t self p (some p) newN =
            some (t, ({ newN with child_iterators := (newN.child_iterators.map (fun x => if x = self then p else x)) })) := by
          simp [interStep, hpne]
        exact ⟨t, _, hstep, fun x hx _ => hx,
          fun hc => absurd hc (by simp),
          fun q qn hq => ⟨qn, hq, fun hmo => hmo⟩⟩
      · have hex : ∃ pn, List.lookup p t.iterators = some pn ∧ self ∈ pn.child_iterators := by
          rcases hcase with hc | hc
          · exact absurd hc hpo
          · exact hc
        obtain ⟨pn, hpn, hselfmem⟩ := hex
        obtain ⟨cl, hcl, hbmem, hclpres⟩ := replaceAt_spec pn.child_iterators self other hselfmem
        refine ⟨{ t with iterators := aset t.iterators p ({ pn with child_iterators := cl }) },
          newN, ?_, ?_, ?_, ?_⟩
        · simp [interStep, hpne, hpo, updateParentChild, hpn, hcl]
        · intro x hx _; exact hx
        · intro hc; exact absurd hc (by simp)
        · intro q qn hq
          by_cases hqp : q = p
          · subst hqp
            refine ⟨{ pn with child_iterators := cl }, ?_, fun _ => hbmem⟩
            rw [lookup_aset]
            simp
          · refine ⟨qn, ?_, fun hmo => hmo⟩
            rw [lookup_aset, if_neg hqp]
            exact hq

lemma steps_ok (t : TiramisuTree) (n1 n2 : String) (p1 p2 : Option String)
    (N1 N2 : IteratorNode)
    (h1none : p1 = none → n1 ∈ t.roots)
    (h1some : ∀ p, p1 = some p → p ≠ "" ∧
      (p = n2 ∨ ∃ pn, List.lookup p t.iterators = some pn ∧ n1 ∈ pn.child_iterators))
    (h2none : p2 = none → n2 ∈ t.roots)
    (h2eq : p2 = none → n2 = n1 → p1 = none)
    (h2some : ∀ q, p2 = some q → q ≠ "" ∧
      (q = n1 ∨ ∃ qn, List.lookup q t.iterators = some qn ∧ n2 ∈ qn.child_iterators)) :
    (match interStep t n1 n2 p1 N1 with
     | none => (t, some TreeErr.stepError)
     | some (t1, nn1) =>
       match interStep t1 n2 n1 p2 N2 with
       | none => (t1, some TreeErr.stepError)
       | some (t2, nn2) =>
         ({ t2 with iterators := aset (aset t2.iterators n1 nn1) n2 nn2 },
          (none : Option TreeErr))).2 = none := by
  obtain ⟨t1, nn1, heq1, hRP, hRPn, hCP⟩ := interStep_ok t n1 n2 p1 N1 h1none h1some
  have h2none' : p2 = none → n2 ∈ t1.roots := by
    intro hp
    have hmem := h2none hp
    by_cases hnn : n2 = n1
    · exact hRPn (h2eq hp hnn) (hnn ▸ hmem)
    · exact hRP n2 hmem hnn
  have h2some' : ∀ q, p2 = some q → q ≠ "" ∧
      (q = n1 ∨ ∃ qn', List.lookup q t1.iterators = some qn' ∧ n2 ∈ qn'.child_iterators) := by
    intro q hq
    obtain ⟨hqne, hcase⟩ := h2some q hq
    refine ⟨hqne, ?_⟩
    rcases hcase with hc | ⟨qn, hqn, hmemq⟩
    · exact Or.inl hc
    · obtain ⟨qn', hqn', himp⟩ := hCP q qn hqn
      exact Or.inr ⟨qn', hqn', himp hmemq⟩
  obtain ⟨t2, nn2, heq2, -, -, -⟩ := interStep_ok t1 n2 n1 p2 N2 h2none' h2some'
  simp [heq1, heq2]

lemma interchangeRun_no_error {t : TiramisuTree} {n1 n2 : String} {nd1 nd2 : IteratorNode}
    (hInv : invariantHolds t = true)
    (h1 : List.lookup n1 t.iterators = some nd1)
    (h2 : List.lookup n2 t.iterators = some nd2) :
    (interchangeRun t n1 n2).2 = none := by
  obtain ⟨hr1, hp1⟩ := inv_node hInv h1
  obtain ⟨hr2, hp2⟩ := inv_node hInv h2
  have h1some : ∀ p, nd1.parent_iterator = some p → p ≠ "" ∧
      (p = n2 ∨ ∃ pn, List.lookup p t.iterators = some pn ∧ n1 ∈ pn.child_iterators) := by
    intro p hp
    obtain ⟨hne, pn, hpn, hm⟩ := hp1 p hp
    exact ⟨hne, Or.inr ⟨pn, hpn, hm⟩⟩
  have h2some : ∀ q, nd2.parent_iterator = some q → q ≠ "" ∧
      (q = n1 ∨ ∃ qn, List.lookup q t.iterators = some qn ∧ n2 ∈ qn.child_iterators) := by
    intro q hq
    obtain ⟨hne, qn, hqn, hm⟩ := hp2 q hq
    exact ⟨hne, Or.inr ⟨qn, hqn, hm⟩⟩
  have h2eq : nd2.parent_iterator = none → n2 = n1 → nd1.parent_iterator = none := by
    intro hp hnn
    subst hnn
    rw [h1] at h2
    injection h2 with h'
    rw [h']
    exact hp
  simp only [interchangeRun, h1, h2]
  exact steps_ok t n1 n2 nd1.parent_iterator nd2.parent_iterator _ _ hr1 h1some hr2 h2eq h2some

/-- C7: on a tree satisfying the data-model invariants, `interchange` fails
exactly when one of the two ids is absent from `iterators` (the
`DisconnectedNodes` situation, a Python `KeyError`), and every failed call
is atomic — the returned state is exactly the tree as it was before the
call, with no partial update visible. -/
theorem interchange_disconnected_atomic (t : TiramisuTree) (n1 n2 : String)
    (hInv : invariantHolds t = true) :
    ((interchangeRun t n1 n2).2 ≠ none ↔
      (List.lookup n1 t.iterators = none ∨ List.lookup n2 t.iterators = none)) ∧
    ((interchangeRun t n1 n2).2 ≠ none → (interchangeRun t n1 n2).1 = t) := by
  cases hl1 : List.lookup n1 t.iterators with
  | none =>
      refine ⟨⟨fun _ => Or.inl rfl, fun _ => by simp [interchangeRun, hl1]⟩, ?_⟩
      intro _
      simp [interchangeRun, hl1]
  | some nd1 =>
      cases hl2 : List.lookup n2 t.iterators with
      | none =>
          refine ⟨⟨fun _ => Or.inr rfl, fun _ => by simp [interchangeRun, hl1, hl2]⟩, ?_⟩
          intro _
          simp [interchangeRun, hl1, hl2]
      | some nd2 =>
          have hno := interchangeRun_no_error hInv hl1 hl2
          refine ⟨⟨fun hc => absurd hno hc, fun hc => ?_⟩, fun hc => absurd hno hc⟩
          rcases hc with hc | hc
          · exact absurd hc (by simp)
          · exact absurd hc (by simp)

/-- Witness for C7: on the sample tree, an `interchange` with an id absent
from `iterators` fails and the returned state is the untouched tree. -/
theorem interchange_disconnected_atomic_witness :
    (interchangeRun tree_test_sample "i" "zz").2 ≠ none ∧
    (interchangeRun tree_test_sample "i" "zz").1 = tree_test_sample := by
  have h := interchange_disconnected_atomic tree_test_sample "i" "zz" (by decide)
  have herr : (interchangeRun tree_test_sample "i" "zz").2 ≠ none :=
    h.1.mpr (Or.inr (by decide))
  exact ⟨herr, h.2 herr⟩

lemma mem_keys_of_lookup {it : List (String × IteratorNode)} {k : String} {v : IteratorNode}
    (h : List.lookup k it = some v) : k ∈ keys it :=
  List.mem_map_of_mem Prod.fst (lookup_mem h)

lemma lookup_of_mem_keys : ∀ {it : List (String × IteratorNode)} {k : String},
    k ∈ keys it → ∃ v, List.lookup k it = some v := by
  intro it
  induction it with
  | nil => intro k h; simp [keys] at h
  | cons kv rest ih =>
      intro k h
      obtain ⟨a, b⟩ := kv
      by_cases hk : k = a
      · exact ⟨b, by simp [lookup_cons_eq, hk]⟩
      · have : k ∈ keys rest := by
          simpa [keys, hk] using h
        obtain ⟨v, hv⟩ := ih this
        exact ⟨v, by simp [lookup_cons_eq, hk, hv]⟩

lemma keys_cons (a : String) (b : IteratorNode) (rest : List (String × IteratorNode)) :
    keys ((a, b) :: rest) = a :: keys rest := rfl

lemma keys_aset_fresh : ∀ (it : List (String × IteratorNode)) (k : String) (v : IteratorNode),
    k ∉ keys it → keys (aset it k v) = keys it ++ [k] := by
  intro it
  induction it with
  | nil => intro k v _; simp [aset, keys]
  | cons kv rest ih =>
      intro k v h
      obtain ⟨a, b⟩ := kv
      rw [keys_cons] at h
      have hka : k ≠ a := fun hc => h (hc ▸ List.mem_cons_self _ _)
      have hrest : k ∉ keys rest := fun hc => h (List.mem_cons_of_mem _ hc)
      rw [keys_cons]
      simp only [aset, if_neg (fun hc => hka hc), keys_cons, ih k v hrest]
      simp

lemma parentsPrecede_seen : ∀ (R : List (String × AnnotEntry)) (seen : List String),
    parentsPrecede seen R = true → ParentsSeen seen R := by
  intro R
  induction R with
  | nil => intro seen _; trivial
  | cons pr rest ih =>
      intro seen h
      obtain ⟨nm, e⟩ := pr
      simp only [parentsPrecede, Bool.and_eq_true] at h
      refine ⟨?_, ih (nm :: seen) h.2⟩
      intro p hp
      have h1 := h.1
      rw [hp] at h1
      simpa using h1

lemma parentsSeen_mono : ∀ (R : List (String × AnnotEntry)) (s1 s2 : List String),
    (∀ x, x ∈ s1 → x ∈ s2) → ParentsSeen s1 R → ParentsSeen s2 R := by
  intro R
  induction R with
  | nil => intro _ _ _ _; trivial
  | cons pr rest ih =>
      intro s1 s2 hsub h
      refine ⟨fun p hp => hsub p (h.1 p hp), ?_⟩
      refine ih (pr.1 :: s1) (pr.1 :: s2) ?_ h.2
      intro x hx
      rcases List.mem_cons.mp hx with hx | hx
      · exact hx ▸ List.mem_cons_self _ _
      · exact List.mem_cons_of_mem _ (hsub x hx)

lemma from_annotations_go_ok :
    ∀ (R : List (String × AnnotEntry)) (t : TiramisuTree),
      (keys t.iterators ++ R.map Prod.fst).Nodup →
      (∀ pr ∈ R, pr.1 ≠ "") →
      ParentsSeen (keys t.iterators) R →
      BuildInv t →
      ∃ t', from_annotations_go t R = some t' ∧
        BuildInv t' ∧
        keys t'.iterators = keys t.iterators ++ R.map Prod.fst ∧
        (∀ nm, nm ∉ R.map Prod.fst →
          List.lookup nm t'.iterators = List.lookup nm t.iterators) ∧
        (∀ pr ∈ R, ∃ nd, List.lookup pr.1 t'.iterators = some nd ∧
          nd.parent_iterator = pr.2.parent_iterator ∧
          nd.child_iterators = pr.2.child_iterators) := by
  intro R
  induction R with
  | nil =>
      intro t hnodup hne hseen hinv
      refine ⟨t, rfl, hinv, by simp, fun nm _ => rfl, by simp⟩
  | cons pr rest ih =>
      intro t hnodup hne hseen hinv
      obtain ⟨nm, e⟩ := pr
      obtain ⟨hinv1, hinv2⟩ := hinv
      obtain ⟨hseen1, hseen2⟩ := hseen
      simp only [List.map_cons] at hnodup
      have hfresh : nm ∉ keys t.iterators := by
        rcases (List.nodup_append.mp hnodup) with ⟨-, -, hdisj⟩
        intro hc
        exact hdisj hc (List.mem_cons_self _ _)
      have hnotrest : nm ∉ rest.map Prod.fst := by
        rcases (List.nodup_append.mp hnodup) with ⟨-, hr, -⟩
        exact (List.nodup_cons.mp hr).1
      have hnmne : nm ≠ "" := hne (nm, e) (List.mem_cons_self _ _)
      have main : ∀ (lvl : Nat) (t1 : TiramisuTree),
          t1.iterators = aset t.iterators nm (nodeOfEntry nm e lvl) →
          (e.parent_iterator = none → lvl = 0 ∧ t1.roots = t.roots ++ [nm]) →
          (∀ p, e.parent_iterator = some p → t1.roots = t.roots ∧ p ≠ "" ∧
            ∃ pn, List.lookup p t.iterators = some pn ∧ lvl = pn.level + 1) →
          ∃ t', from_annotations_go t1 rest = some t' ∧
            BuildInv t' ∧
            keys t'.iterators = keys t.iterators ++ (nm :: rest.map Prod.fst) ∧
            (∀ x, x ∉ (nm :: rest.map Prod.fst) →
              List.lookup x t'.iterators = List.lookup x t.iterators) ∧
            (∀ pr ∈ ((nm, e) :: rest), ∃ nd, List.lookup pr.1 t'.iterators = some nd ∧
              nd.parent_iterator = pr.2.parent_iterator ∧
              nd.child_iterators = pr.2.child_iterators) := by
        intro lvl t1 ht1i hcase0 hcaseP
        have hrootsub : ∀ x, x ∈ t.roots → x ∈ t1.roots := by
          intro x hx
          cases hp : e.parent_iterator with
          | none => rw [(hcase0 hp).2]; exact List.mem_append_left _ hx
          | some p => rw [(hcaseP p hp).1]; exact hx
        have hkeys1 : keys t1.iterators = keys t.iterators ++ [nm] := by
          rw [ht1i]
          exact keys_aset_fresh t.iterators nm _ hfresh
        have hlen1 : t1.iterators.length = t.iterators.length + 1 := by
          have h1 : (keys t1.iterators).length = (keys t.iterators).length + 1 := by
            rw [hkeys1]; simp
          simpa [keys] using h1
        have hlk1 : ∀ x, List.lookup x t1.iterators =
            if x = nm then some (nodeOfEntry nm e lvl) else List.lookup x t.iterators := by
          intro x
          rw [ht1i]
          exact lookup_aset t.iterators nm _ x
        have hlvl_lt : lvl < t1.iterators.length := by
          cases hp : e.parent_iterator with
          | none => rw [(hcase0 hp).1, hlen1]; omega
          | some p =>
              obtain ⟨-, -, pn, hpn, hlvl⟩ := hcaseP p hp
              have := (hinv2 p pn hpn).2.2
              rw [hlvl, hlen1]
              omega
        have hinvt1 : BuildInv t1 := by
          constructor
          · intro x hx
            rw [hkeys1] at hx
            rcases List.mem_append.mp hx with hx | hx
            · exact hinv1 x hx
            · have hxe : x = nm := by simpa using hx
              exact hxe ▸ hnmne
          · intro x nd hnd
            rw [hlk1 x] at hnd
            by_cases hx : x = nm
            · rw [if_pos hx] at hnd
              injection hnd with hnd
              subst hnd
              refine ⟨?_, ?_, ?_⟩
              · intro hpn
                simp only [nodeOfEntry] at hpn ⊢
                obtain ⟨hlvl0, hroots⟩ := hcase0 hpn
                refine ⟨hlvl0, ?_⟩
                rw [hx, hroots]
                exact List.mem_append_right _ (List.mem_cons_self _ _)
              · intro p hpp
                simp only [nodeOfEntry] at hpp ⊢
                obtain ⟨-, hpne, pn, hpn, hlvl⟩ := hcaseP p hpp
                have hpnm : p ≠ nm := by
                  intro hc
                  exact hfresh (hc ▸ mem_keys_of_lookup hpn)
                refine ⟨hpne, pn, ?_, hlvl⟩
                rw [hlk1 p, if_neg hpnm]
                exact hpn
              · simpa [nodeOfEntry] using hlvl_lt
            · rw [if_neg hx] at hnd
              obtain ⟨ha, hb, hc⟩ := hinv2 x nd hnd
              refine ⟨?_, ?_, ?_⟩
              · intro hpn
                exact ⟨(ha hpn).1, hrootsub x (ha hpn).2⟩
              · intro p hpp
                obtain ⟨hpne, pn, hpn, hlvl⟩ := hb p hpp
                have hpnm : p ≠ nm := by
                  intro hcc
                  exact hfresh (hcc ▸ mem_keys_of_lookup hpn)
                refine ⟨hpne, pn, ?_, hlvl⟩
                rw [hlk1 p, if_neg hpnm]
                exact hpn
              · rw [hlen1]; omega
        have hseent1 : ParentsSeen (keys t1.iterators) rest := by
          refine parentsSeen_mono rest (nm :: keys t.iterators) _ ?_ hseen2
          intro x hx
          rw [hkeys1]
          rcases List.mem_cons.mp hx with hx | hx
          · exact hx ▸ List.mem_append_right _ (List.mem_cons_self _ _)
          · exact List.mem_append_left _ hx
        have hnodup1 : (keys t1.iterators ++ rest.map Prod.fst).Nodup := by
          rw [hkeys1, List.append_assoc]
          simpa using hnodup
        have hne1 : ∀ pr ∈ rest, pr.1 ≠ "" :=
          fun pr hpr => hne pr (List.mem_cons_of_mem _ hpr)
        obtain ⟨t', hgo, hinvt', hkeyst', hprest', hentt'⟩ :=
          ih t1 hnodup1 hne1 hseent1 hinvt1
        refine ⟨t', hgo, hinvt', ?_, ?_, ?_⟩
        · rw [hkeyst', hkeys1, List.append_assoc]
          simp
        · intro x hx
          have hx1 : x ≠ nm := fun hc => hx (hc ▸ List.mem_cons_self _ _)
          have hx2 : x ∉ rest.map Prod.fst := fun hc => hx (List.mem_cons_of_mem _ hc)
          rw [hprest' x hx2, hlk1 x, if_neg hx1]
        · intro pr hpr
          rcases List.mem_cons.mp hpr with hpr | hpr
          · subst hpr
            refine ⟨nodeOfEntry nm e lvl, ?_, by simp [nodeOfEntry], by simp [nodeOfEntry]⟩
            rw [hprest' nm hnotrest, hlk1 nm, if_pos rfl]
          · exact hentt' pr hpr
      cases hp : e.parent_iterator with
      | none =>
          obtain ⟨t', hgo, h1, h2, h3, h4⟩ := main 0
            { roots := t.roots ++ [nm],
              iterators := aset t.iterators nm (nodeOfEntry nm e 0),
              computations := t.computations ++ e.computations_list }
            rfl (fun _ => ⟨rfl, rfl⟩)
            (fun p hpp => by rw [hp] at hpp; exact absurd hpp (by simp))
          refine ⟨t', ?_, h1, h2, h3, h4⟩
          simp only [from_annotations_go, hp]
          exact hgo
      | some p =>
          have hpk : p ∈ keys t.iterators := hseen1 p hp
          obtain ⟨pn, hpn⟩ := lookup_of_mem_keys hpk
          obtain ⟨t', hgo, h1, h2, h3, h4⟩ := main (pn.level + 1)
            { roots := t.roots,
              iterators := aset t.iterators nm (nodeOfEntry nm e (pn.level + 1)),
              computations := t.computations ++ e.computations_list }
            rfl
            (fun hc => by rw [hp] at hc; exact absurd hc (by simp))
            (fun q hq => by
              have hqp : q = p := by
                rw [hp] at hq
                injection hq with hq
                exact hq.symm
              subst hqp
              exact ⟨rfl, hinv1 q hpk, pn, hpn, rfl⟩)
          refine ⟨t', ?_, h1, h2, h3, h4⟩
          simp only [from_annotations_go, hp, hpn]
          exact hgo

lemma get_level_of_node_inv {t : TiramisuTree} (hinv : BuildInv t) :
    ∀ (fuel : Nat) (nm : String) (nd : IteratorNode),
      List.lookup nm t.iterators = some nd → nd.level < fuel →
      get_level_of_node t.iterators fuel nm = some nd.level := by
  obtain ⟨hinv1, hinv2⟩ := hinv
  intro fuel
  induction fuel with
  | zero => intro nm nd _ hlt; exact absurd hlt (by omega)
  | succ f ihf =>
      intro nm nd h hlt
      obtain ⟨hnone, hsome, -⟩ := hinv2 nm nd h
      cases hp : nd.parent_iterator with
      | none =>
          obtain ⟨hlev, -⟩ := hnone hp
          simp [get_level_of_node, h, hp, hlev]
      | some p =>
          obtain ⟨hpne, pn, hpn, hlev⟩ := hsome p hp
          have hlt2 : pn.level < f := by omega
          have hrec := ihf p pn hpn hlt2
          simp [get_level_of_node, h, hp, hpne, hrec, hlev]

/-- C5 (amended): `from_annotations` requires every entry's parent to
precede it in the annotation listing (shown separately, a child-first
listing hits a `KeyError`); under that order, for every valid annotation it
succeeds and produces a tree in which every parentless node is a root,
every non-root node appears exactly once in its parent's child list, and
every node's stored `level` equals its number of ancestors as recomputed
by walking parent links (`get_level_of_node`), which is 0 for roots. -/
theorem from_annotations_valid (annots : List (String × AnnotEntry))
    (hv : validAnnots annots = true) :
    ∃ t, from_annotations annots = some t ∧
      ∀ nm nd, List.lookup nm t.iterators = some nd →
        (nd.parent_iterator = none → nm ∈ t.roots) ∧
        (∀ p, nd.parent_iterator = some p →
          ∃ pn, List.lookup p t.iterators = some pn ∧ pn.child_iterators.count nm = 1) ∧
        get_level_of_node t.iterators (t.iterators.length + 1) nm = some nd.level := by
  simp only [validAnnots, Bool.and_eq_true, decide_eq_true_eq] at hv
  obtain ⟨⟨⟨hnodup, hnames⟩, hprec⟩, hbidi⟩ := hv
  have hne : ∀ pr ∈ annots, pr.1 ≠ "" := by
    intro pr hpr
    have := List.all_eq_true.mp hnames pr hpr
    simpa using this
  have hseen : ParentsSeen (keys ({ roots := [], iterators := [], computations := [] } : TiramisuTree).iterators) annots := by
    exact parentsPrecede_seen annots [] hprec
  have hinv0 : BuildInv { roots := [], iterators := [], computations := [] } := by
    constructor
    · intro nm hnm; simp [keys] at hnm
    · intro nm nd h; simp [lookup_nil_eq] at h
  have hnodup0 : (keys ({ roots := [], iterators := [], computations := [] } : TiramisuTree).iterators ++ annots.map Prod.fst).Nodup := by
    simpa [keys] using hnodup
  obtain ⟨t, hgo, hinvt, hkeyst, -, hent⟩ :=
    from_annotations_go_ok annots _ hnodup0 hne hseen hinv0
  refine ⟨t, hgo, ?_⟩
  intro nm nd hnd
  obtain ⟨hinvt1, hinvt2⟩ := hinvt
  obtain ⟨ha, hb, hlvl⟩ := hinvt2 nm nd hnd
  have hkeys : keys t.iterators = annots.map Prod.fst := by
    simpa [keys] using hkeyst
  -- the entry of this node
  have hnm_mem : nm ∈ annots.map Prod.fst := by
    rw [← hkeys]
    exact mem_keys_of_lookup hnd
  obtain ⟨pr, hpr_mem, hpr_eq⟩ := List.mem_map.mp hnm_mem
  obtain ⟨nd0, hnd0, hnd0p, hnd0c⟩ := hent pr hpr_mem
  rw [hpr_eq] at hnd0
  have hnd_eq : nd0 = nd := by
    rw [hnd] at hnd0
    injection hnd0 with h'
    exact h'.symm
  subst hnd_eq
  refine ⟨fun hp => (ha hp).2, ?_, ?_⟩
  · intro p hp
    -- validity gives the parent entry and the count
    have hclause := List.all_eq_true.mp hbidi pr hpr_mem
    simp only [Bool.and_eq_true] at hclause
    have hparent := hclause.1
    rw [← hnd0p, hp] at hparent
    cases hpe : List.lookup p annots with
    | none => simp [hpe] at hparent
    | some pe =>
        simp only [hpe, decide_eq_true_eq] at hparent
        obtain ⟨pn0, hpn0, hpn0p, hpn0c⟩ := hent (p, pe) (lookup_mem hpe)
        refine ⟨pn0, hpn0, ?_⟩
        rw [hpn0c, ← hpr_eq]
        exact hparent
  · have hlvl_lt : nd0.level < t.iterators.length + 1 := by omega
    exact get_level_of_node_inv ⟨hinvt1, hinvt2⟩ (t.iterators.length + 1) nm nd0 hnd hlvl_lt

/-- Witness for C5's amended theorem at the concrete valid annotation
`annots4` (7 iterators over 4 roots, listed parent-first). -/
theorem from_annotations_valid_witness :
    ∃ t, from_annotations annots4 = some t ∧
      ∀ nm nd, List.lookup nm t.iterators = some nd →
        (nd.parent_iterator = none → nm ∈ t.roots) ∧
        (∀ p, nd.parent_iterator = some p →
          ∃ pn, List.lookup p t.iterators = some pn ∧ pn.child_iterators.count nm = 1) ∧
        get_level_of_node t.iterators (t.iterators.length + 1) nm = some nd.level :=
  from_annotations_valid annots4 (by decide)

lemma repOK_node {it : List (String × IteratorNode)} {n : String} {c s : NT}
    (h : repOK it (.node n c s) = true) :
    ∃ nd, List.lookup n it = some nd ∧ nd.child_iterators = NT.rootNames c ∧
      repOK it c = true ∧ repOK it s = true := by
  simp only [repOK] at h
  cases hl : List.lookup n it with
  | none => rw [hl] at h; exact absurd h (by simp)
  | some nd =>
      rw [hl] at h
      simp only [Bool.and_eq_true, decide_eq_true_eq] at h
      exact ⟨nd, rfl, h.1.1, h.1.2, h.2⟩

lemma names_node (n : String) (c s : NT) :
    NT.names (.node n c s) = n :: (NT.names c ++ NT.names s) := rfl

lemma rootNames_cat : ∀ (f g : NT),
    NT.rootNames (NT.cat f g) = NT.rootNames f ++ NT.rootNames g := by
  intro f
  induction f with
  | nilt => intro g; rfl
  | node n c s ihc ihs => intro g; simp [NT.cat, NT.rootNames, ihs]

lemma names_cat : ∀ (f g : NT),
    NT.names (NT.cat f g) = NT.names f ++ NT.names g := by
  intro f
  induction f with
  | nilt => intro g; rfl
  | node n c s ihc ihs => intro g; simp [NT.cat, NT.names, ihs]

lemma repOK_cat {it : List (String × IteratorNode)} : ∀ (f g : NT),
    repOK it f = true → repOK it g = true → repOK it (NT.cat f g) = true := by
  intro f
  induction f with
  | nilt => intro g _ hg; exact hg
  | node n c s ihc ihs =>
      intro g hf hg
      obtain ⟨nd, hl, hch, hc, hs⟩ := repOK_node hf
      simp only [NT.cat, repOK, hl, Bool.and_eq_true, decide_eq_true_eq]
      exact ⟨⟨hch, hc⟩, ihs g hs hg⟩

lemma names_sub_keys (it : List (String × IteratorNode)) : ∀ (F : NT),
    repOK it F = true → ∀ x ∈ NT.names F, x ∈ keys it := by
  intro F
  induction F with
  | nilt => intro _ x hx; simp [NT.names] at hx
  | node n c s ihc ihs =>
      intro h x hx
      obtain ⟨nd, hl, -, hc, hs⟩ := repOK_node h
      rw [names_node] at hx
      rcases List.mem_cons.mp hx with hx | hx
      · exact hx ▸ mem_keys_of_lookup hl
      · rcases List.mem_append.mp hx with hx | hx
        · exact ihc hc x hx
        · exact ihs hs x hx

lemma sectionOfNode_rep (it : List (String × IteratorNode)) :
    ∀ (fuel : Nat) (n : String) (c : NT),
      (∃ nd, List.lookup n it = some nd ∧ nd.child_iterators = NT.rootNames c ∧
        repOK it c = true) →
      1 + (NT.names c).length ≤ fuel →
      ∃ sec G, sectionOfNode it fuel n = some (sec, NT.rootNames G) ∧
        repOK it G = true ∧ sec ++ NT.names G = n :: NT.names c ∧ sec ≠ [] := by
  intro fuel
  induction fuel with
  | zero => intro n c _ hlen; exact absurd hlen (by omega)
  | succ f ihf =>
      intro n c hhyp hlen
      obtain ⟨nd, hlook, hch, hrc⟩ := hhyp
      cases c with
      | nilt =>
          cases hcm : nd.computations_list with
          | nil =>
              refine ⟨[n], .nilt, ?_, rfl, by simp [NT.names], by simp⟩
              simp [sectionOfNode, hlook, hch, hcm, NT.rootNames]
          | cons x xs =>
              refine ⟨[n], .nilt, ?_, rfl, by simp [NT.names], by simp⟩
              simp [sectionOfNode, hlook, hch, hcm, NT.rootNames]
      | node c1 k s =>
          cases s with
          | nilt =>
              cases hcm : nd.computations_list with
              | nil =>
                  obtain ⟨nd1, hl1, hch1, hrk, -⟩ := repOK_node hrc
                  have hlen2 : 1 + (NT.names k).length ≤ f := by
                    rw [names_node] at hlen
                    simp only [NT.names, List.length_cons, List.length_append] at hlen
                    omega
                  obtain ⟨sec, G, hrec, hrg, heq, hsne⟩ :=
                    ihf c1 k ⟨nd1, hl1, hch1, hrk⟩ hlen2
                  refine ⟨n :: sec, G, ?_, hrg, ?_, by simp⟩
                  · simp [sectionOfNode, hlook, hch, hcm, NT.rootNames, hrec]
                  · rw [names_node]
                    simp only [NT.names, List.append_nil, List.cons_append, heq]
              | cons x xs =>
                  refine ⟨[n], NT.node c1 k .nilt, ?_, hrc, by simp [NT.names], by simp⟩
                  simp [sectionOfNode, hlook, hch, hcm, NT.rootNames]
          | node s1 sk ss =>
              cases hcm : nd.computations_list with
              | nil =>
                  refine ⟨[n], NT.node c1 k (NT.node s1 sk ss), ?_, hrc, by simp [NT.names], by simp⟩
                  simp [sectionOfNode, hlook, hch, hcm, NT.rootNames]
              | cons x xs =>
                  refine ⟨[n], NT.node c1 k (NT.node s1 sk ss), ?_, hrc, by simp [NT.names], by simp⟩
                  simp [sectionOfNode, hlook, hch, hcm, NT.rootNames]

lemma collectSections_rep (it : List (String × IteratorNode)) (chainFuel : Nat) :
    ∀ (fuel : Nat) (F : NT), repOK it F = true →
      (NT.names F).length < fuel →
      (NT.names F).length ≤ chainFuel →
      ∃ secs, collectSections it chainFuel fuel (NT.rootNames F) = some secs ∧
        secs.flatten.Perm (NT.names F) := by
  intro fuel
  induction fuel with
  | zero =>
      intro F hrep hlt _
      cases F with
      | nilt => exact ⟨[], rfl, by simp [NT.names]⟩
      | node n c s =>
          rw [names_node] at hlt
          exact absurd hlt (by simp)
  | succ f ihf =>
      intro F hrep hlt hcf
      cases F with
      | nilt => exact ⟨[], rfl, by simp [NT.names]⟩
      | node n c s =>
          obtain ⟨nd, hlook, hch, hrc, hrs⟩ := repOK_node hrep
          have hchain : 1 + (NT.names c).length ≤ chainFuel := by
            rw [names_node] at hcf
            simp only [List.length_cons, List.length_append] at hcf
            omega
          obtain ⟨sec, G, hsec, hrg, heq, hsne⟩ :=
            sectionOfNode_rep it chainFuel n c ⟨nd, hlook, hch, hrc⟩ hchain
          have hseclen : 1 ≤ sec.length := by
            cases sec with
            | nil => exact absurd rfl hsne
            | cons a l => simp
          have hlensum : sec.length + (NT.names G).length = 1 + (NT.names c).length := by
            have := congrArg List.length heq
            simp at this
            omega
          have hltG : (NT.names (NT.cat s G)).length < f := by
            rw [names_cat, List.length_append]
            rw [names_node, List.length_cons, List.length_append] at hlt
            omega
          have hcfG : (NT.names (NT.cat s G)).length ≤ chainFuel := by
            rw [names_cat, List.length_append]
            rw [names_node, List.length_cons, List.length_append] at hcf
            omega
          obtain ⟨secs, hcol, hperm⟩ := ihf (NT.cat s G) (repOK_cat s G hrs hrg) hltG hcfG
          refine ⟨sec :: secs, ?_, ?_⟩
          · have hq : NT.rootNames s ++ NT.rootNames G = NT.rootNames (NT.cat s G) :=
              (rootNames_cat s G).symm
            simp only [NT.rootNames, collectSections, hsec, hq, hcol]
          · have p1 : secs.flatten.Perm (NT.names s ++ NT.names G) := by
              rw [← names_cat]
              exact hperm
            have p2 : (sec ++ secs.flatten).Perm (sec ++ (NT.names G ++ NT.names s)) :=
              List.Perm.append_left sec (p1.trans List.perm_append_comm)
            have p3 : sec ++ (NT.names G ++ NT.names s) = (n :: NT.names c) ++ NT.names s := by
              rw [← List.append_assoc, heq]
            rw [names_node]
            refine (p2.trans ?_)
            rw [p3]
            simp

lemma sectionsForRoots_rep (it : List (String × IteratorNode)) (fuel : Nat) :
    ∀ (F : NT), repOK it F = true → (NT.names F).length < fuel →
      ∃ res, sectionsForRoots it fuel (NT.rootNames F) = some res ∧
        (res.flatMap (fun pr => pr.2.flatten)).Perm (NT.names F) := by
  intro F
  induction F with
  | nilt => intro _ _; exact ⟨[], rfl, by simp [NT.names]⟩
  | node n c s ihc ihs =>
      intro hrep hlt
      obtain ⟨nd, hlook, hch, hrc, hrs⟩ := repOK_node hrep
      have hrep1 : repOK it (NT.node n c .nilt) = true := by
        simp only [repOK, hlook, Bool.and_eq_true, decide_eq_true_eq]
        exact ⟨⟨hch, hrc⟩, trivial⟩
      have hlen1 : (NT.names (NT.node n c .nilt)).length < fuel := by
        rw [names_node]
        rw [names_node] at hlt
        simp only [List.length_cons, List.length_append] at hlt ⊢
        simp only [NT.names, List.length_nil]
        omega
      obtain ⟨secs, hcol, hperm1⟩ :=
        collectSections_rep it fuel fuel (NT.node n c .nilt) hrep1 hlen1 (by omega)
      have hlts : (NT.names s).length < fuel := by
        rw [names_node, List.length_cons, List.length_append] at hlt
        omega
      obtain ⟨res, hres, hperms⟩ := ihs hrs hlts
      refine ⟨(n, secs) :: res, ?_, ?_⟩
      · have hq : NT.rootNames (NT.node n c .nilt) = [n] := rfl
        rw [hq] at hcol
        simp only [NT.rootNames, sectionsForRoots, hcol, hres]
      · simp only [List.flatMap_cons]
        have := List.Perm.append hperm1 hperms
        rw [names_node]
        refine this.trans ?_
        rw [names_node]
        simp [NT.names]

/-- C10: on any tree whose roots and child lists realise a finite
tree-shaped forest with distinct names (`repOK`), the work-list traversal
of `get_candidate_sections` terminates within its fuel with every iterator
lookup succeeding (the result is `some`), and it visits each node
reachable from a root exactly once: the concatenation of all produced
sections is a permutation of the forest's node names, hence duplicate
free. -/
theorem get_candidate_sections_terminates (t : TiramisuTree) (F : NT)
    (hrep : repOK t.iterators F = true)
    (hroots : t.roots = NT.rootNames F)
    (hnodup : (NT.names F).Nodup) :
    ∃ res, get_candidate_sections t = some res ∧
      (res.flatMap (fun pr => pr.2.flatten)).Perm (NT.names F) ∧
      (res.flatMap (fun pr => pr.2.flatten)).Nodup := by
  have hsub : ∀ x ∈ NT.names F, x ∈ keys t.iterators := names_sub_keys _ F hrep
  have hbound : (NT.names F).length ≤ t.iterators.length := by
    have hsp := List.subperm_of_subset hnodup hsub
    have hle := hsp.length_le
    simpa [keys] using hle
  obtain ⟨res, hres, hperm⟩ :=
    sectionsForRoots_rep t.iterators (t.iterators.length + 1) F hrep (by omega)
  refine ⟨res, ?_, hperm, (hperm.nodup_iff).mpr hnodup⟩
  rw [get_candidate_sections, hroots]
  exact hres

/-- Witness for C10 on the sample tree with its explicit forest shape. -/
theorem get_candidate_sections_terminates_witness :
    ∃ res, get_candidate_sections tree_test_sample = some res ∧
      (res.flatMap (fun pr => pr.2.flatten)).Perm (NT.names sampleForest) ∧
      (res.flatMap (fun pr => pr.2.flatten)).Nodup :=
  get_candidate_sections_terminates tree_test_sample sampleForest
    (by decide) (by decide) (by decide)
